import Mathlib

/-!
Verification of the OCR text pipeline of this repository against its design
document.  The Python sources under `src/adapters` are shallowly embedded:
pure string functions become Lean functions on `List Char` / `String`,
calls into external libraries (pytesseract, OpenCV, unicodedata,
`ProcessPoolExecutor`) become explicit parameters or documented models, and
exception flow becomes `Except`.
-/

set_option autoImplicit false

namespace OcrSpec

/-! ### Character classes

The Python sources use `re` character classes (`\w`, `\s`, `\d`) and the
`str` methods `isalpha` / `islower` / `isupper` over Unicode.  The pipeline
is Spanish-language OCR text; the embedding fixes the alphabet to ASCII plus
the accented Spanish letters that the sources name explicitly, which is the
fragment all data of this repository lives in. -/

/-- Models Python `\s` and `str.strip` whitespace (ASCII fragment). -/
def wsChar (c : Char) : Bool :=
  c = ' ' || c = '\t' || c = '\n' || c = '\r' || c = '\x0b' || c = '\x0c'

def spanishLower : List Char := ['á', 'é', 'í', 'ó', 'ú', 'ü', 'ñ']

def spanishUpper : List Char := ['Á', 'É', 'Í', 'Ó', 'Ú', 'Ü', 'Ñ']

/-- Lower-case cased characters (models `str.islower` per character). -/
def lowerChar (c : Char) : Bool :=
  (decide ('a' ≤ c) && decide (c ≤ 'z')) || spanishLower.contains c

/-- Upper-case cased characters. -/
def upperChar (c : Char) : Bool :=
  (decide ('A' ≤ c) && decide (c ≤ 'Z')) || spanishUpper.contains c

/-- Models Python `str.isalpha` per character on the repository's alphabet. -/
def alphaChar (c : Char) : Bool := lowerChar c || upperChar c

/-- Models Python `\w` (word character) on the repository's alphabet. -/
def wordChar (c : Char) : Bool := alphaChar c || c.isDigit || c = '_'

/-! ### Small string utilities shared by the embedded functions -/

/-- Python `str.strip()`: drop whitespace from both ends. -/
def pyStrip (l : List Char) : List Char :=
  ((l.dropWhile wsChar).reverse.dropWhile wsChar).reverse

/-- Number of alphabetic characters, `sum(c.isalpha() for c in line)`. -/
def countAlpha (l : List Char) : Nat := (l.filter alphaChar).length

/-- Split on a single character; pieces never contain the separator. -/
def splitChar (sep : Char) : List Char → List (List Char)
  | [] => [[]]
  | c :: rest =>
    match splitChar sep rest with
    | [] => [[c]]
    | h :: t => if c = sep then [] :: h :: t else (c :: h) :: t

/-- Join pieces with a single character separator. -/
def joinChar (sep : Char) : List (List Char) → List Char
  | [] => []
  | [l] => l
  | l :: ls => l ++ sep :: joinChar sep ls

/-! ### `text_processing.py` — cleanup_text -/

/-- Worker for `re.sub(r"\s\x7b2,\x7d", " ", text)`: a maximal run of two or
more whitespace characters becomes a single space, an isolated whitespace
character is kept as it is.  `inRun` records that the previous character was
part of a run that has been dropped so far. -/
def collapseGo (inRun : Bool) : List Char → List Char
  | [] => []
  | c :: rest =>
    if wsChar c then
      if (rest.head?.map wsChar).getD false then collapseGo true rest
      else (if inRun then ' ' else c) :: collapseGo false rest
    else c :: collapseGo false rest

/-- Models `re.sub(r"\s\x7b2,\x7d", " ", text)` in `cleanup_text`. -/
def collapseWs (l : List Char) : List Char := collapseGo false l

/-- External collaborator model: `unicodedata.normalize("NFKC", text)`.
NFKC is the identity on the NFC-normal Latin fragment this pipeline
processes (ASCII plus the precomposed Spanish letters), so it is modelled as
the identity function. -/
def nfkcNormalize (l : List Char) : List Char := l

/-- Characters kept by `re.sub(r"[^\w\sÁÉÍÓÚÜÑñáéíóúü¿¡.,;:%\-()/]", " ", text)`:
word characters, whitespace, and the listed punctuation.  The accented
letters named in the source class are already word characters here. -/
def allowedChar (c : Char) : Bool :=
  wordChar c || wsChar c ||
    ['¿', '¡', '.', ',', ';', ':', '%', '-', '(', ')', '/'].contains c

/-- The allow-list substitution of `cleanup_text`: disallowed characters
become spaces. -/
def allowSub (l : List Char) : List Char :=
  l.map (fun c => if allowedChar c then c else ' ')

/-- The noise filter of `cleanup_text`: keep a line iff
`letters / max(len(line), 1) >= 0.3`.  The test is encoded by
cross-multiplication, which is exact for this comparison of nonnegative
rationals; see `keepLine_iff_ratio`. -/
def keepLine (l : List Char) : Bool :=
  decide (3 * max l.length 1 ≤ 10 * countAlpha l)

/-- The line loop of `cleanup_text`: keep the lines that pass `keepLine`,
append each kept line stripped, and join with newlines. -/
def cleanupLines (l : List Char) : List Char :=
  joinChar '\n' (((splitChar '\n' l).filter keepLine).map pyStrip)

/-- `cleanup_text` from `src/adapters/ocr/text_processing.py` (lines 18-46):
NFKC normalization, allow-list substitution, whitespace collapsing, then the
per-line noise filter. -/
def cleanup_textL (l : List Char) : List Char :=
  cleanupLines (collapseWs (allowSub (nfkcNormalize l)))

def cleanup_text (s : String) : String := ⟨cleanup_textL s.data⟩

/-! ### `text_processing.py` — detect_lists -/

/-- Models `re.match(r"^\(?\d+[\.\)-]", line)` together with the rewrite
`re.sub(r"^\(?(\d+)[\.\)-]\s*", r"\1. ", line)`: an optional opening
parenthesis, one or more digits, one of `.`, `)`, `-`, then trailing
whitespace; on success the line is rewritten to `digits ++ ". " ++ rest`. -/
def listNumSub (l : List Char) : Option (List Char) :=
  let l1 := match l with
    | '(' :: t => t
    | _ => l
  let ds := l1.takeWhile Char.isDigit
  if ds.isEmpty then none
  else
    match l1.drop ds.length with
    | d :: t =>
      if d = '.' || d = ')' || d = '-' then
        some (ds ++ '.' :: ' ' :: t.dropWhile wsChar)
      else none
    | [] => none

/-- Models `re.match(r"^[-•–]", line)` with
`re.sub(r"^[-•–]\s*", "- ", line)`. -/
def listBulletSub (l : List Char) : Option (List Char) :=
  match l with
  | c :: t =>
    if c = '-' || c = '•' || c = '–' then some ('-' :: ' ' :: t.dropWhile wsChar)
    else none
  | [] => none

/-- One iteration of the `detect_lists` loop: strip the line, then rewrite a
numbered-list or bullet marker when present. -/
def detectListsLine (l : List Char) : List Char :=
  let s := pyStrip l
  match listNumSub s with
  | some r => r
  | none =>
    match listBulletSub s with
    | some r => r
    | none => s

/-- `detect_lists` from `text_processing.py` (lines 99-120). -/
def detect_listsL (l : List Char) : List Char :=
  joinChar '\n' ((splitChar '\n' l).map detectListsLine)

def detect_lists (s : String) : String := ⟨detect_listsL s.data⟩

/-! ### `text_processing.py` — apply_manual_corrections -/

/-- `apply_manual_corrections` from `text_processing.py` (lines 123-137)
returns its input unchanged when `CORRECTIONS_PATH` (`data/corrections.csv`)
does not exist; the repository ships no such file, so the function is the
identity. -/
def apply_manual_corrections (s : String) : String := s

/-! ### `text_processing.py` — segment_text_blocks -/

/-- Split on a literal substring pattern (Python `str.split(pat)`),
leftmost, non-overlapping.  `fuel` bounds recursion depth; it is spent one
unit per consumed character, so `l.length` is always enough. -/
def splitSubGo (pat : List Char) : Nat → List Char → List (List Char)
  | 0, l => [l]
  | _ + 1, [] => [[]]
  | fuel + 1, c :: rest =>
    if pat.isPrefixOf (c :: rest) && !pat.isEmpty then
      [] :: splitSubGo pat fuel ((c :: rest).drop pat.length)
    else
      match splitSubGo pat fuel rest with
      | [] => [[c]]
      | h :: t => (c :: h) :: t

def splitSub (pat l : List Char) : List (List Char) :=
  splitSubGo pat l.length l

/-- Models Python `str.isupper()` on the repository's alphabet: at least one
cased character, and no lower-case cased character. -/
def pyIsUpper (l : List Char) : Bool :=
  l.any (fun c => lowerChar c || upperChar c) && l.all (fun c => !lowerChar c)

def keywordStarts : List (List Char) :=
  ["Artículo".data, "Capítulo".data, "Sección".data, "Título".data]

/-- One block of the `segment_text_blocks` loop: skip blank blocks; promote
short all-upper-case blocks and blocks starting with a legal keyword to a
Markdown level-3 heading. -/
def segmentBlock (b : List Char) : Option (List Char) :=
  let s := pyStrip b
  if s.isEmpty then none
  else if pyIsUpper s && decide (s.length < 80) then some ("### ".data ++ s)
  else if keywordStarts.any (fun w => w.isPrefixOf s) then some ("### ".data ++ s)
  else some s

/-- `segment_text_blocks` from `text_processing.py` (lines 67-96): split on
double newlines, transform each block, join with double newlines. -/
def segment_text_blocksL (l : List Char) : List Char :=
  List.intercalate "\n\n".data ((splitSub "\n\n".data l).filterMap segmentBlock)

def segment_text_blocks (s : String) : String := ⟨segment_text_blocksL s.data⟩

/-! ### `text_processing.py` — detect_structured_headings -/

def headingWords : List (List Char) :=
  ["VISTOS".data, "CONSIDERANDO".data, "RESUELVO".data, "DECRETO".data,
   "FUNDAMENTO".data, "TENIENDO PRESENTE".data, "POR TANTO".data]

/-- The character class `[:\s]` of the heading pattern. -/
def headTailChar (c : Char) : Bool := c = ':' || wsChar c

/-- Attempt the pattern `^\s*HD[:\s]*` at the current position (which the
caller knows to be a line start): greedy whitespace, the heading word, then
greedy colons/whitespace.  On success returns the last consumed character
(`re.sub` resumes scanning after it, and multiline `^` looks at it) and the
remaining suffix. -/
def headingMatch (hd l : List Char) : Option (Char × List Char) :=
  let r1 := l.dropWhile wsChar
  if hd.isPrefixOf r1 then
    let r2 := r1.drop hd.length
    let consumed := r2.takeWhile headTailChar
    some (consumed.getLastD (hd.getLastD ' '), r2.drop consumed.length)
  else none

/-- Scanner for `re.sub(rf"(?m)^\s*\x7bheading\x7d[:\s]*", f"\n### \x7bheading\x7d\n", text)`:
at each line-start position try `headingMatch`; on success emit the
replacement and resume after the match, otherwise copy one character.
`fuel` is spent one unit per step and every step consumes at least one
character, so `l.length` is always enough. -/
def headingSubGo (hd : List Char) : Nat → Bool → List Char → List Char
  | 0, _, l => l
  | _ + 1, _, [] => []
  | fuel + 1, atStart, c :: rest =>
    if atStart then
      match headingMatch hd (c :: rest) with
      | some (lastC, r3) =>
        ("\n### ".data ++ hd ++ ['\n']) ++ headingSubGo hd fuel (lastC = '\n') r3
      | none => c :: headingSubGo hd fuel (c = '\n') rest
    else c :: headingSubGo hd fuel (c = '\n') rest

/-- `detect_structured_headings` from `text_processing.py` (lines 49-64):
apply the heading substitution for each heading word in order. -/
def detect_structured_headingsL (l : List Char) : List Char :=
  headingWords.foldl (fun acc hd => headingSubGo hd acc.length true acc) l

def detect_structured_headings (s : String) : String :=
  ⟨detect_structured_headingsL s.data⟩

/-! ### The page text post-processing pipeline

`engine.py`, `perform_ocr_on_page` steps 8-11 (table section and optional
LLM refinement aside): `detect_lists(cleanup_text(raw))`, then
`apply_manual_corrections`, `segment_text_blocks`, and finally
`detect_structured_headings`. -/

def postprocess_pipeline (s : String) : String :=
  detect_structured_headings
    (segment_text_blocks (apply_manual_corrections (detect_lists (cleanup_text s))))

def pyStripS (s : String) : String := ⟨pyStrip s.data⟩

/-! ### `ocr_text.py` — fix_line_breaks -/

def parMarker : List Char := "[PARAGRAPH]".data

/-- Worker for `re.sub(r"\n\x7b2,\x7d", "[PARAGRAPH]", text)`: a maximal run
of two or more newlines becomes one marker; an isolated newline is kept. -/
def parSubGo (inRun : Bool) : List Char → List Char
  | [] => []
  | c :: rest =>
    if c = '\n' then
      if rest.head? = some '\n' then parSubGo true rest
      else (if inRun then parMarker else ['\n']) ++ parSubGo false rest
    else c :: parSubGo false rest

def parSub (l : List Char) : List Char := parSubGo false l

/-- Python `str.replace(pat, rep)`: leftmost non-overlapping occurrences.
`fuel` is spent one unit per step; every step consumes at least one
character, so `l.length` is always enough. -/
def replaceGo (pat rep : List Char) : Nat → List Char → List Char
  | 0, l => l
  | _ + 1, [] => []
  | fuel + 1, c :: rest =>
    if pat.isPrefixOf (c :: rest) && !pat.isEmpty then
      rep ++ replaceGo pat rep fuel ((c :: rest).drop pat.length)
    else c :: replaceGo pat rep fuel rest

def replaceSub (pat rep l : List Char) : List Char :=
  replaceGo pat rep l.length l

def endsWithChar (l : List Char) (c : Char) : Bool := l.getLast? = some c

/-- `ends_with_continuation`: the stripped line ends with one of
`,`, `:`, `;`, `-`. -/
def contPunct (s : List Char) : Bool :=
  [',', ':', ';', '-'].any (fun c => endsWithChar s c)

/-- The stripped line ends with none of `.`, `!`, `?`. -/
def noSentenceEnd (s : List Char) : Bool :=
  !endsWithChar s '.' && !endsWithChar s '!' && !endsWithChar s '?'

/-- `next_starts_lowercase`: there is a next raw line, its stripped form is
non-empty, and its first (unstripped) character is lower-case, exactly as
`lines[i+1].strip() and lines[i+1][0].islower()` evaluates. -/
def nextStartsLower : List (List Char) → Bool
  | [] => false
  | nx :: _ => !(pyStrip nx).isEmpty && (nx.head?.map lowerChar).getD false

/-- The merge condition of the loop:
`ends_with_continuation or (no_sentence_end and next_starts_lowercase)`. -/
def mergeCond (s : List Char) (rest : List (List Char)) : Bool :=
  contPunct s || (noSentenceEnd s && nextStartsLower rest)

/-- The line loop of `fix_line_breaks` (ocr_text.py lines 190-212): strip the
line and skip it when blank; emit it followed by a space when `mergeCond`
holds (the break is merged away), otherwise followed by a newline. -/
def fixLoop : List (List Char) → List (List Char)
  | [] => []
  | l :: rest =>
    if (pyStrip l).isEmpty then fixLoop rest
    else if mergeCond (pyStrip l) rest then (pyStrip l ++ [' ']) :: fixLoop rest
    else (pyStrip l ++ ['\n']) :: fixLoop rest

/-- `fix_line_breaks` from `src/adapters/ocr/ocr_text.py` (lines 170-220):
protect paragraph breaks with a marker, run the line loop, join, restore the
marker as a double newline, strip. -/
def fix_line_breaksL (l : List Char) : List Char :=
  if l.isEmpty then l
  else
    pyStrip (replaceSub parMarker "\n\n".data ((fixLoop (splitChar '\n' (parSub l))).flatten))

def fix_line_breaks (s : String) : String := ⟨fix_line_breaksL s.data⟩

/-! ### `ocr_image.py` — table-cell detection and Markdown reconstruction

The OpenCV part of `detect_table_cells` (binarize, extract line masks,
invert, `cv2.findContours`) is an external collaborator; its output — the
list of candidate cell contours, each with its `cv2.contourArea` and
`cv2.boundingRect` — is a parameter of the embedding, as are the two
`pytesseract.image_to_string` calls. -/

structure Rect where
  x : Nat
  y : Nat
  w : Nat
  h : Nat
deriving DecidableEq, Repr

structure Contour where
  area : Nat
  rect : Rect
deriving DecidableEq, Repr

/-- One cropped candidate-table image together with the external-collaborator
outputs on it: the cell contours OpenCV finds in its inverted grid mask, the
OCR text of the whole crop, and the OCR text of each cell sub-crop. -/
structure TableCrop where
  contours : List Contour
  ocrWhole : String
  ocrCell : Rect → String

namespace OcrImage

/-- The area filter of `detect_table_cells` (ocr_image.py lines 326-333):
keep contours whose area is at least `min_area = 100`. -/
def cellContours (t : TableCrop) : List Contour :=
  t.contours.filter (fun c => 100 ≤ c.area)

def natAbsDiff (a b : Nat) : Nat := max a b - min a b

/-- Stable insertion into a list sorted by `key` (earlier-inserted elements
stay in front of later equal keys, matching Python's stable `list.sort`). -/
def insertByKey {α : Type} (key : α → Nat) (a : α) : List α → List α
  | [] => [a]
  | b :: t => if key b < key a then b :: insertByKey key a t else a :: b :: t

/-- Stable sort by a `Nat` key, models Python `list.sort(key=...)`. -/
def sortByKey {α : Type} (key : α → Nat) (l : List α) : List α :=
  l.foldr (insertByKey key) []

/-- The row-grouping loop of `detect_table_cells` (lines 348-369): walk the
y-sorted cells; a cell whose y differs from the current row's reference y by
more than 10 starts a new row; each finished row is sorted by x. -/
def clusterGo (curY : Nat) (cur : List Rect) (acc : List (List Rect)) :
    List Rect → List (List Rect)
  | [] => if cur.isEmpty then acc else acc ++ [sortByKey (fun r => r.x) cur]
  | cell :: rest =>
    if 10 < natAbsDiff cell.y curY then
      clusterGo cell.y [cell]
        (if cur.isEmpty then acc else acc ++ [sortByKey (fun r => r.x) cur]) rest
    else clusterGo curY (cur ++ [cell]) acc rest

/-- `detect_table_cells` from `ocr_image.py` (lines 290-381): filter cell
contours by area, declare the grid degenerate when fewer than 4 remain,
otherwise sort bounding boxes by y, group them into rows (x-sorted within a
row), and key each cell crop by its (row, column) index. -/
def detect_table_cells (t : TableCrop) : List ((Nat × Nat) × Rect) :=
  if (cellContours t).length < 4 then []
  else
    match sortByKey (fun r => r.y) ((cellContours t).map Contour.rect) with
    | [] => []
    | c0 :: crest =>
      ((clusterGo c0.y [] [] (c0 :: crest)).enum.map
        (fun p => p.2.enum.map (fun q => ((p.1, q.1), q.2)))).flatten

/-- The per-cell OCR texts, `pytesseract.image_to_string(cell_img, ...).strip()`
keyed by (row, column) as in lines 254-261. -/
def cellTexts (t : TableCrop) : List ((Nat × Nat) × String) :=
  (detect_table_cells t).map (fun p => (p.1, pyStripS (t.ocrCell p.2)))

/-- The distinct row keys of the `rows` dict. -/
def rowKeysOf (cells : List ((Nat × Nat) × String)) : List Nat :=
  (cells.map (fun p => p.1.1)).dedup

/-- Column keys present in row `r`. -/
def colKeysOf (cells : List ((Nat × Nat) × String)) (r : Nat) : List Nat :=
  (cells.filter (fun p => p.1.1 == r)).map (fun p => p.1.2)

/-- `max_cols` (lines 263-266): fold of
`max(max_cols, max(row_data.keys(), default=0) + 1)` over the rows. -/
def maxColsOf (cells : List ((Nat × Nat) × String)) : Nat :=
  (rowKeysOf cells).foldl (fun acc r => max acc ((colKeysOf cells r).foldl max 0 + 1)) 0

/-- `rows[row_idx].get(col_idx, "")`: dict lookup with empty-string default;
a repeated key keeps the last write, like a Python dict. -/
def lookupCellText (cells : List ((Nat × Nat) × String)) (r c : Nat) : String :=
  match (cells.filter (fun p => p.1.1 == r && p.1.2 == c)).getLast? with
  | some p => p.2
  | none => ""

/-- `sorted(rows.keys())`. -/
def rowKeysSorted (cells : List ((Nat × Nat) × String)) : List Nat :=
  sortByKey (fun r => r) (rowKeysOf cells)

/-- The cell list of one emitted data row (lines 280-284): one entry per
column index below `max_cols`, with the empty string for missing cells. -/
def dataRowCells (cells : List ((Nat × Nat) × String)) (r : Nat) : List String :=
  (List.range (maxColsOf cells)).map (fun c => lookupCellText cells r c)

/-- `ocr_table_to_markdown` from `ocr_image.py` (lines 236-287): with no
detected cells, OCR the whole crop and fence it as a literal block;
otherwise emit a generated header, a separator, and one ` | `-joined line
per detected row. -/
def ocr_table_to_markdown (t : TableCrop) : String :=
  let cells := cellTexts t
  if cells.isEmpty then "```\n" ++ t.ocrWhole ++ "\n```"
  else
    let maxCols := maxColsOf cells
    let header :=
      String.intercalate " | " ((List.range maxCols).map (fun i => "Columna " ++ toString (i + 1)))
    let separator := String.intercalate " | " ((List.range maxCols).map (fun _ => "---"))
    let dataRows :=
      (rowKeysSorted cells).map (fun r => String.intercalate " | " (dataRowCells cells r))
    String.intercalate "\n" (header :: separator :: dataRows)

/-- `has_visual_table` from `ocr_image.py` (lines 106-139), as a function of
the two pixel counts the OpenCV part computes: `line_pixels`
(`cv2.countNonZero` of the combined line mask) and `total_pixels`
(`img_gray.size`).  Returns `line_ratio > 0.005`. -/
def has_visual_table (linePixels totalPixels : Nat) : Bool :=
  decide ((5 : ℚ) / 1000 < (linePixels : ℚ) / (totalPixels : ℚ))

end OcrImage

/-! ### `tables.py` — the whitespace-split table reconstruction -/

namespace Tables

/-- Python `str.split()` with no argument: split on whitespace runs,
dropping empty fields. -/
def splitWsAux (cur : List Char) (acc : List (List Char)) : List Char → List (List Char)
  | [] => (if cur.isEmpty then acc else cur.reverse :: acc).reverse
  | c :: rest =>
    if wsChar c then splitWsAux [] (if cur.isEmpty then acc else cur.reverse :: acc) rest
    else splitWsAux (c :: cur) acc rest

def pySplitWs (l : List Char) : List (List Char) := splitWsAux [] [] l

/-- `raw_text.strip().splitlines()` followed by the blank-line filter
(tables.py lines 51-52). -/
def nonBlankLines (raw : List Char) : List (List Char) :=
  (splitChar '\n' (pyStrip raw)).filter (fun line => !(pyStrip line).isEmpty)

/-- Pad a short row with empty cells, truncate a long one (lines 63-68). -/
def padTruncRow (hLen : Nat) (cells : List (List Char)) : List (List Char) :=
  if cells.length < hLen then cells ++ List.replicate (hLen - cells.length) []
  else if hLen < cells.length then cells.take hLen
  else cells

/-- `header_cells = lines[0].split()`. -/
def headerCells (raw : List Char) : List (List Char) :=
  match nonBlankLines raw with
  | [] => []
  | h :: _ => pySplitWs h

/-- The padded/truncated cell lists of the emitted data rows. -/
def dataRows (raw : List Char) : List (List (List Char)) :=
  (nonBlankLines raw).tail.map (fun line => padTruncRow (headerCells raw).length (pySplitWs line))

/-- One emitted `"| " ++ " | ".join(cells) ++ " |"` row. -/
def mdRow (cells : List (List Char)) : List Char :=
  "| ".data ++ List.intercalate " | ".data cells ++ " |".data

/-- `ocr_table_to_markdown` from `src/adapters/ocr/tables.py` (lines 45-70),
as a function of the raw OCR text of the crop
(`pytesseract.image_to_string(img, ...)` is the external collaborator):
fewer than two non-blank lines yield the empty string; otherwise the first
line becomes the header and every further line a data row padded/truncated
to the header's cell count. -/
def ocr_table_to_markdown (raw : String) : String :=
  let lines := nonBlankLines raw.data
  if lines.length < 2 then ""
  else
    let header := headerCells raw.data
    ⟨List.intercalate "\n".data
      (mdRow header :: mdRow (header.map (fun _ => "---".data)) :: (dataRows raw.data).map mdRow)⟩

/-- Greatest cell count over all non-blank lines of the crop's OCR text
(header line included) — the "maximum number of columns across all rows" of
the property under test. -/
def maxColsAcross (raw : List Char) : Nat :=
  ((nonBlankLines raw).map (fun line => (pySplitWs line).length)).foldr max 0

end Tables

/-! ### `image_processing.py` — estimate_psm_for_page -/

/-- `estimate_psm_for_page` from `src/adapters/ocr/image_processing.py`
(lines 44-75), as a function of `num_boxes = len(contours)` computed by the
external OpenCV part (Otsu binarization plus `cv2.findContours`). -/
def estimate_psm_for_page (numBoxes : Nat) : Nat :=
  if numBoxes < 5 then 7
  else if 50 < numBoxes then 11
  else if 20 < numBoxes ∧ numBoxes ≤ 50 then 4
  else 6

/-! ### `document_processing.py` — worker count, page loop, parallel gather -/

/-- One PDF page, as the per-page pipeline sees it: the selectable text
`page.get_text()` returns, and the outcome of `perform_ocr_on_page(page)` —
either the produced text or the message of the exception it raises
(pytesseract/OpenCV errors, timeouts). -/
structure PdfPage where
  directText : String
  ocrResult : Except String String

namespace DocumentProcessing

/-- `needs_ocr` from `document_processing.py` (lines 99-111) at its default
threshold 10: the page needs OCR iff its stripped selectable text has fewer
than 10 characters. -/
def needs_ocr (p : PdfPage) : Bool :=
  decide ((pyStrip p.directText.data).length < 10)

/-- The page loop of `extract_markdown` (lines 199-208) inside the `try`
block: each page contributes its stripped selectable text, or — when it
needs OCR — whatever `perform_ocr_on_page` produces; an exception raised on
any page aborts the loop. -/
def pageTexts : List PdfPage → Except String (List String)
  | [] => Except.ok []
  | p :: rest =>
    match (if needs_ocr p then p.ocrResult else Except.ok (pyStripS p.directText)) with
    | Except.error e => Except.error e
    | Except.ok t =>
      match pageTexts rest with
      | Except.error e => Except.error e
      | Except.ok ts => Except.ok (t :: ts)

/-- `extract_markdown` from `document_processing.py` (lines 158-227) for an
existing, openable PDF on the sequential path with `USE_LLM_REFINER` at its
false default: join the page texts with blank lines; the `except Exception`
handler at line 225 turns any exception from the loop into the string
`"Error: " ++ message`. -/
def extract_markdown (pages : List PdfPage) : String :=
  match pageTexts pages with
  | Except.ok ts => String.intercalate "\n\n" ts
  | Except.error e => "Error: " ++ e

/-- The first OCR failure the page loop runs into, if any. -/
def firstOcrFailure : List PdfPage → Option String
  | [] => none
  | p :: rest =>
    if needs_ocr p then
      match p.ocrResult with
      | Except.error e => some e
      | Except.ok _ => firstOcrFailure rest
    else firstOcrFailure rest

/-- The text a page contributes when no failure occurs. -/
def pageTextOk (p : PdfPage) : String :=
  if needs_ocr p then
    match p.ocrResult with
    | Except.ok t => t
    | Except.error _ => ""
  else pyStripS p.directText

/-- Python `x or y` on an optional integer: `y` when `x` is `None` or `0`. -/
def pyOrNat (a : Option Nat) (b : Nat) : Nat :=
  match a with
  | none => b
  | some k => if k = 0 then b else k

/-- The worker count of `run_parallel_ocr` (line 146):
`n_cores = max(1, os.cpu_count() or 2 - 1)`.  Python parses the right
operand as `os.cpu_count() or (2 - 1)` because `-` binds tighter than
`or`. -/
def nCoresOf (cpuCount : Option Nat) : Nat :=
  max 1 (pyOrNat cpuCount (2 - 1))

/-- External collaborator model: `ProcessPoolExecutor.map` over the task
list `[(pdf_path, i) for i in range(n_pages)]` (lines 149-151).  Workers
finish in some order `arrival`; each finished task's result is stored in
the slot of its input page index. -/
def gatherSlots (P : Nat) (arrival : List (Fin P)) (f : Fin P → String) : Nat → String :=
  arrival.foldl (fun acc j => Function.update acc j.val (f j)) fun _ => ""

/-- `run_parallel_ocr` (lines 125-153): the list `executor.map` yields is
read out slot by slot in page-index order, never in arrival order. -/
def run_parallel_ocr (P : Nat) (arrival : List (Fin P)) (f : Fin P → String) : List String :=
  (List.range P).map (gatherSlots P arrival f)

end DocumentProcessing

/-! ### `pymupdf_adapter.py` — page-section assembly -/

namespace PymupdfAdapter

/-- The per-page sections of `extract_markdown` (pymupdf_adapter.py lines
56-57): `f"## Page \x7bpage_num\x7d\n\n\x7btext.strip()\x7d"` for
`page_num` enumerating the gathered page texts from 1. -/
def pageSections (texts : List String) : List String :=
  texts.enum.map (fun p => "## Page " ++ toString (p.1 + 1) ++ "\n\n" ++ pyStripS p.2)

/-- `extract_markdown` from `pymupdf_adapter.py` (lines 38-77) with LLM
refinement off: title line from the file stem, then the page sections joined
by blank lines. -/
def extract_markdown (stem : String) (texts : List String) : String :=
  "# " ++ stem ++ "\n\n" ++ String.intercalate "\n\n" (pageSections texts)

end PymupdfAdapter

/-- The decision table as the specification states it: fewer than 5 contours
select single-line mode (PSM 7), 5-20 uniform-block (PSM 6), 21-50
column-flow (PSM 4), more than 50 general mode (PSM 11). -/
def psmSpecTable (n : Nat) : Nat :=
  if n < 5 then 7 else if n ≤ 20 then 6 else if n ≤ 50 then 4 else 11


/-- `letters / max(len(line), 1)` with Python's `ZeroDivisionError` made
explicit: `none` when the divisor is zero. -/
def ratioOf (l : List Char) : Option ℚ :=
  if ((max l.length 1 : Nat) : ℚ) = 0 then none
  else some ((countAlpha l : ℚ) / ((max l.length 1 : Nat) : ℚ))

def keepLineChecked (l : List Char) : Option Bool :=
  (ratioOf l).map (fun r => decide ((3 : ℚ) / 10 ≤ r))

def keptLinesChecked : List (List Char) → Option (List (List Char))
  | [] => some []
  | line :: rest =>
    match keepLineChecked line, keptLinesChecked rest with
    | some k, some ks => some (if k then line :: ks else ks)
    | _, _ => none

def cleanup_textChecked (l : List Char) : Option (List Char) :=
  (keptLinesChecked (splitChar '\n' (collapseWs (allowSub (nfkcNormalize l))))).map
    (fun kept => joinChar '\n' (kept.map pyStrip))

/-- The four stages of the claim with the partial division made explicit. -/
def postprocess_stagesChecked (s : String) : Option String :=
  (cleanup_textChecked s.data).map
    (fun t => detect_structured_headings (segment_text_blocks (detect_lists ⟨t⟩)))

/-- No two adjacent whitespace characters. -/
def wsPairFree (l : List Char) : Prop :=
  List.Chain' (fun a b => ¬(wsChar a = true ∧ wsChar b = true)) l

/-! ## Helper lemmas about `pyStrip`, `countAlpha` and `keepLine` -/

theorem length_dropWhile_lt_of_head {p : Char → Bool} {c : Char} {t : List Char}
    (h : p c = true) : (List.dropWhile p (c :: t)).length < (c :: t).length := by
  rw [List.dropWhile_cons_of_pos h]
  exact Nat.lt_succ_of_le (List.dropWhile_sublist p).length_le

theorem pyStrip_length_le (l : List Char) : (pyStrip l).length ≤ l.length := by
  unfold pyStrip
  calc ((l.dropWhile wsChar).reverse.dropWhile wsChar).reverse.length
      = ((l.dropWhile wsChar).reverse.dropWhile wsChar).length := List.length_reverse _
    _ ≤ (l.dropWhile wsChar).reverse.length := (List.dropWhile_sublist _).length_le
    _ = (l.dropWhile wsChar).length := List.length_reverse _
    _ ≤ l.length := (List.dropWhile_sublist _).length_le

theorem head_not_of_dropWhile {p : Char → Bool} :
    ∀ {x : List Char} {c : Char}, (x.dropWhile p).head? = some c → p c = false := by
  intro x
  induction x with
  | nil => intro c h; simp at h
  | cons a t ih =>
    intro c h
    by_cases ha : p a = true
    · rw [List.dropWhile_cons_of_pos ha] at h
      exact ih h
    · rw [List.dropWhile_cons_of_neg ha, List.head?_cons, Option.some_inj] at h
      rw [← h]
      exact Bool.eq_false_iff.mpr ha

theorem getLast_of_suffix {x y : List Char} (h : x <:+ y) (hx : x ≠ []) :
    x.getLast? = y.getLast? := by
  obtain ⟨pre, rfl⟩ := h
  exact (List.getLast?_append_of_ne_nil pre hx).symm

/-- The head of a stripped list is not whitespace. -/
theorem pyStrip_head_not_ws {l : List Char} {c : Char}
    (h : (pyStrip l).head? = some c) : wsChar c = false := by
  unfold pyStrip at h
  rw [List.head?_reverse] at h
  have hne : (l.dropWhile wsChar).reverse.dropWhile wsChar ≠ [] := by
    intro hnil; rw [hnil] at h; simp at h
  have hsuf : (l.dropWhile wsChar).reverse.dropWhile wsChar <:+ (l.dropWhile wsChar).reverse :=
    List.dropWhile_suffix wsChar
  rw [getLast_of_suffix hsuf hne, List.getLast?_reverse] at h
  exact head_not_of_dropWhile h

/-- The last element of a stripped list is not whitespace. -/
theorem pyStrip_getLast_not_ws {l : List Char} {c : Char}
    (h : (pyStrip l).getLast? = some c) : wsChar c = false := by
  unfold pyStrip at h
  rw [List.getLast?_reverse] at h
  exact head_not_of_dropWhile h

/-- A list whose two ends are not whitespace is already stripped. -/
theorem pyStrip_eq_self_of_ends {x : List Char}
    (h1 : ∀ c, x.head? = some c → wsChar c = false)
    (h2 : ∀ c, x.getLast? = some c → wsChar c = false) : pyStrip x = x := by
  cases x with
  | nil => rfl
  | cons a t =>
    have ha : wsChar a = false := h1 a rfl
    unfold pyStrip
    rw [List.dropWhile_cons_of_neg (by simp [ha])]
    rcases hlast : (a :: t).getLast? with _ | c
    · simp at hlast
    · have hc : wsChar c = false := h2 c hlast
      have hrev : (a :: t).reverse.head? = some c := by
        rw [List.head?_reverse]; exact hlast
      cases hr : (a :: t).reverse with
      | nil => rw [hr] at hrev; simp at hrev
      | cons b s =>
        rw [hr] at hrev
        rw [List.head?_cons, Option.some_inj] at hrev
        rw [List.dropWhile_cons_of_neg (by simp [hrev ▸ hc]), ← hr, List.reverse_reverse]

theorem pyStrip_idem (l : List Char) : pyStrip (pyStrip l) = pyStrip l :=
  pyStrip_eq_self_of_ends (fun _ h => pyStrip_head_not_ws h)
    (fun _ h => pyStrip_getLast_not_ws h)

/-- Characters surviving `pyStrip` come from the original list. -/
theorem mem_of_mem_pyStrip {l : List Char} {c : Char} (h : c ∈ pyStrip l) : c ∈ l := by
  unfold pyStrip at h
  rw [List.mem_reverse] at h
  have h1 := List.Sublist.mem h (List.dropWhile_sublist wsChar)
  rw [List.mem_reverse] at h1
  exact List.Sublist.mem h1 (List.dropWhile_sublist wsChar)

theorem ws_not_alpha {c : Char} (h : wsChar c = true) : alphaChar c = false := by
  have hc : ((((c = ' ' ∨ c = '\t') ∨ c = '\n') ∨ c = '\r') ∨ c = '\x0b') ∨ c = '\x0c' := by
    simpa [wsChar, decide_eq_true_eq] using h
  rcases hc with ((((rfl | rfl) | rfl) | rfl) | rfl) | rfl <;> decide

/-- Stripping only removes whitespace, which is never alphabetic. -/
theorem countAlpha_pyStrip (l : List Char) : countAlpha (pyStrip l) = countAlpha l := by
  have key : ∀ x : List Char, (x.dropWhile wsChar).filter alphaChar = x.filter alphaChar := by
    intro x
    induction x with
    | nil => rfl
    | cons c t ih =>
      by_cases hc : wsChar c = true
      · rw [List.dropWhile_cons_of_pos hc, ih, List.filter_cons, ws_not_alpha hc]
        simp
      · rw [List.dropWhile_cons_of_neg hc]
  have krev : ∀ x : List Char, (x.reverse.filter alphaChar).length = (x.filter alphaChar).length := by
    intro x
    rw [List.filter_reverse, List.length_reverse]
  unfold countAlpha pyStrip
  rw [krev]
  rw [show List.filter alphaChar (List.dropWhile wsChar (List.dropWhile wsChar l).reverse)
      = List.filter alphaChar (List.dropWhile wsChar l).reverse from key _]
  rw [krev, key]

theorem keepLine_pyStrip {l : List Char} (h : keepLine l = true) :
    keepLine (pyStrip l) = true := by
  rw [keepLine, decide_eq_true_eq] at h ⊢
  rw [countAlpha_pyStrip]
  have := pyStrip_length_le l
  omega

theorem pyStrip_ne_nil_of_keepLine {l : List Char} (h : keepLine l = true) :
    pyStrip l ≠ [] := by
  intro hnil
  have h2 : countAlpha l = 0 := by
    rw [← countAlpha_pyStrip l, hnil]
    rfl
  rw [keepLine, decide_eq_true_eq] at h
  have h3 := Nat.le_max_right l.length 1
  omega

/-- Fidelity of the cross-multiplied noise test: `keepLine` holds exactly
when the ratio `letters / max(len, 1)` of `cleanup_text` is at least 3/10. -/
theorem keepLine_iff_ratio (l : List Char) :
    keepLine l = true ↔ (3 : ℚ) / 10 ≤ (countAlpha l : ℚ) / ((max l.length 1 : Nat) : ℚ) := by
  rw [keepLine, decide_eq_true_eq]
  have hpos : (0 : ℚ) < ((max l.length 1 : Nat) : ℚ) := by
    have h1 : (1 : Nat) ≤ max l.length 1 := Nat.le_max_right _ _
    exact_mod_cast Nat.lt_of_lt_of_le Nat.zero_lt_one h1
  rw [div_le_div_iff (by norm_num) hpos]
  constructor
  · intro h
    have h' : 3 * max l.length 1 ≤ countAlpha l * 10 := by omega
    exact_mod_cast h'
  · intro h
    have h' : 3 * max l.length 1 ≤ countAlpha l * 10 := by exact_mod_cast h
    omega

/-! ## C7 — the contour-count PSM decision table -/

/-- C7: the contour-count layout estimator is a total deterministic decision
table over the contour count: below 5 contours it returns PSM 7
(single-line), from 5 to 20 PSM 6 (uniform block), from 21 to 50 PSM 4
(column flow), above 50 PSM 11 (general); consequently any two counts in the
same bucket select the same mode and each count selects exactly one mode,
with boundary values resolving to the lower bucket. -/
theorem c7_psm_decision_table (n : Nat) : estimate_psm_for_page n = psmSpecTable n := by
  unfold estimate_psm_for_page psmSpecTable
  split_ifs <;> omega

/-! ## C10 — the parallel worker count -/

/-- C10: at a machine reporting 4 CPU cores, `run_parallel_ocr` creates
`max(1, os.cpu_count() or 2 - 1) = 4` worker processes, not
`max(1, 4 - 1) = 3` as the claim (and the comment above the source line)
states: `-` binds tighter than `or`, so the `- 1` lands on the fallback
constant instead of the core count. -/
theorem c10_worker_count_bug :
    DocumentProcessing.nCoresOf (some 4) = 4 ∧
    max 1 (4 - 1) = 3 ∧
    DocumentProcessing.nCoresOf (some 4) ≠ max 1 (4 - 1) := by
  decide

/-! ## C2 — degenerate table crops fall back to a fenced literal block -/

/-- C2 (amended): in the cell-grid implementation
(`ocr_image.ocr_table_to_markdown`), a crop in which fewer than 4 cell
contours survive the area filter yields the whole-crop OCR text fenced as a
literal block, with no generated table rows. -/
theorem c2_degenerate_crop_is_fenced (t : TableCrop)
    (h : (OcrImage.cellContours t).length < 4) :
    OcrImage.ocr_table_to_markdown t = "```\n" ++ t.ocrWhole ++ "\n```" := by
  have hd : OcrImage.detect_table_cells t = [] := by
    unfold OcrImage.detect_table_cells
    rw [if_pos h]
  have hc : OcrImage.cellTexts t = [] := by
    unfold OcrImage.cellTexts
    rw [hd]
    rfl
  unfold OcrImage.ocr_table_to_markdown
  rw [hc]
  rfl

theorem c2_witness :
    (OcrImage.cellContours ⟨[], "hola mundo", fun _ => ""⟩).length < 4 ∧
    OcrImage.ocr_table_to_markdown ⟨[], "hola mundo", fun _ => ""⟩ =
      "```\n" ++ "hola mundo" ++ "\n```" :=
  ⟨by decide, c2_degenerate_crop_is_fenced ⟨[], "hola mundo", fun _ => ""⟩ (by decide)⟩

/-- C2 (counterexample): the repository's other `ocr_table_to_markdown`
(tables.py) never looks at cell contours; on a crop with zero detected cell
contours whose OCR text has two non-blank lines it emits pipe-delimited
Markdown table syntax rather than a fenced literal block. -/
theorem c2_counterexample :
    (OcrImage.cellContours ⟨[], "a b\nc d", fun _ => ""⟩).length < 4 ∧
    Tables.ocr_table_to_markdown "a b\nc d" = "| a | b |\n| --- | --- |\n| c | d |" ∧
    ('|' ∈ "| a | b |\n| --- | --- |\n| c | d |".data) ∧
    Tables.ocr_table_to_markdown "a b\nc d" ≠ "```\n" ++ "a b\nc d" ++ "\n```" := by
  refine ⟨by decide, by decide, by decide, by decide⟩

/-! ## C6 — row/column padding invariant -/

theorem padTruncRow_length (hLen : Nat) (cells : List (List Char)) :
    (Tables.padTruncRow hLen cells).length = hLen := by
  unfold Tables.padTruncRow
  split_ifs with h1 h2
  · rw [List.length_append, List.length_replicate]
    omega
  · rw [List.length_take]
    omega
  · omega

/-- C6 (amended): in the cell-grid implementation (ocr_image.py), every
emitted data row has exactly `max_cols` cells, where `max_cols` is the
maximum over detected rows of the highest column index plus one, and missing
cells are padded with the empty string; in the whitespace-split
implementation (tables.py), every emitted data row has exactly as many cells
as the header row — short rows padded with empty strings, long rows
truncated — which need not be the maximum cell count across all rows.
Neither implementation can fail on ragged rows: both are total. -/
theorem c6_row_padding_invariant (cells : List ((Nat × Nat) × String)) (r : Nat)
    (hr : r ∈ OcrImage.rowKeysSorted cells) (raw : String) (row : List (List Char))
    (hrow : row ∈ Tables.dataRows raw.data) :
    (OcrImage.dataRowCells cells r).length = OcrImage.maxColsOf cells ∧
    row.length = (Tables.headerCells raw.data).length := by
  constructor
  · unfold OcrImage.dataRowCells
    rw [List.length_map, List.length_range]
  · unfold Tables.dataRows at hrow
    obtain ⟨line, _, rfl⟩ := List.mem_map.mp hrow
    exact padTruncRow_length _ _

theorem c6_witness :
    (0 : Nat) ∈ OcrImage.rowKeysSorted [((0, 0), "a"), ((0, 1), "b"), ((1, 0), "c")] ∧
    [['x'], ['y']] ∈ Tables.dataRows "a b\nx y z".data ∧
    ((OcrImage.dataRowCells [((0, 0), "a"), ((0, 1), "b"), ((1, 0), "c")] 0).length =
        OcrImage.maxColsOf [((0, 0), "a"), ((0, 1), "b"), ((1, 0), "c")] ∧
      [['x'], ['y']].length = (Tables.headerCells "a b\nx y z".data).length) :=
  ⟨by decide, by decide,
    c6_row_padding_invariant [((0, 0), "a"), ((0, 1), "b"), ((1, 0), "c")] 0 (by decide)
      "a b\nx y z" [['x'], ['y']] (by decide)⟩

/-- C6 (counterexample): in the whitespace-split implementation a data row
with more cells than the header is truncated to the header's cell count, so
an emitted row can have fewer cells than the maximum column count across all
rows: on OCR text `"a b\nx y z"` the only data row is emitted with 2 cells
while the maximum across rows is 3. -/
theorem c6_counterexample :
    Tables.ocr_table_to_markdown "a b\nx y z" = "| a | b |\n| --- | --- |\n| x | y |" ∧
    Tables.dataRows "a b\nx y z".data = [[['x'], ['y']]] ∧
    Tables.maxColsAcross "a b\nx y z".data = 3 ∧
    ([['x'], ['y']] : List (List Char)).length ≠ 3 := by
  refine ⟨by decide, by decide, by decide, by decide⟩

/-! ## C8 — the visual-table ratio predicate -/

/-- C8: `has_visual_table` returns true exactly when the ratio of line-mask
foreground pixels to total pixels exceeds 0.005, i.e. when
`total_pixels < 200 * line_pixels`, for every image with at least one
pixel; the decision depends only on the two pixel counts, independent of
region extraction. -/
theorem c8_has_visual_table_iff (lp tp : Nat) (h : 0 < tp) :
    OcrImage.has_visual_table lp tp = true ↔ tp < 200 * lp := by
  unfold OcrImage.has_visual_table
  rw [decide_eq_true_eq]
  have htp : (0 : ℚ) < (tp : ℚ) := by exact_mod_cast h
  rw [show (5 : ℚ) / 1000 = 1 / 200 by norm_num, div_lt_div_iff (by norm_num) htp]
  constructor
  · intro hlt
    have : ((tp : Nat) : ℚ) < ((200 * lp : Nat) : ℚ) := by push_cast; linarith
    exact_mod_cast this
  · intro hlt
    have : ((tp : Nat) : ℚ) < ((200 * lp : Nat) : ℚ) := by exact_mod_cast hlt
    push_cast at this
    linarith

theorem c8_witness :
    0 < (100 : Nat) ∧ (OcrImage.has_visual_table 1 100 = true ↔ 100 < 200 * 1) :=
  ⟨by decide, c8_has_visual_table_iff 1 100 (by decide)⟩

/-! ## C1 — a page-level OCR failure and the document result -/

theorem pageTexts_of_failure {pages : List PdfPage} {e : String}
    (h : DocumentProcessing.firstOcrFailure pages = some e) :
    DocumentProcessing.pageTexts pages = Except.error e := by
  induction pages with
  | nil => simp [DocumentProcessing.firstOcrFailure] at h
  | cons p rest ih =>
    unfold DocumentProcessing.firstOcrFailure at h
    unfold DocumentProcessing.pageTexts
    by_cases hn : DocumentProcessing.needs_ocr p
    · rw [if_pos hn] at h ⊢
      cases hr : p.ocrResult with
      | error e' =>
        rw [hr] at h
        simp at h
        rw [h]
      | ok t =>
        rw [hr] at h
        rw [ih h]
    · rw [if_neg hn] at h ⊢
      rw [ih h]

theorem pageTexts_of_no_failure {pages : List PdfPage}
    (h : DocumentProcessing.firstOcrFailure pages = none) :
    DocumentProcessing.pageTexts pages =
      Except.ok (pages.map DocumentProcessing.pageTextOk) := by
  induction pages with
  | nil => rfl
  | cons p rest ih =>
    unfold DocumentProcessing.firstOcrFailure at h
    unfold DocumentProcessing.pageTexts
    rw [List.map_cons]
    by_cases hn : DocumentProcessing.needs_ocr p
    · rw [if_pos hn] at h ⊢
      cases hr : p.ocrResult with
      | error e' => rw [hr] at h; simp at h
      | ok t =>
        rw [hr] at h
        rw [ih h]
        unfold DocumentProcessing.pageTextOk
        rw [if_pos hn, hr]
    · rw [if_neg hn] at h ⊢
      rw [ih h]
      unfold DocumentProcessing.pageTextOk
      rw [if_neg hn]

/-- C1 (amended): a failure raised inside the OCR stage of any page is not
recovered locally: it aborts the page loop of `extract_markdown`, whose
document-level handler returns the string `"Error: " ++ message` — the text
of every other page is absent from the result.  The joined document text is
produced only when the OCR stage of every page that needs OCR succeeds. -/
theorem c1_ocr_failure_aborts_document (pages : List PdfPage) :
    (∀ e, DocumentProcessing.firstOcrFailure pages = some e →
      DocumentProcessing.extract_markdown pages = "Error: " ++ e) ∧
    (DocumentProcessing.firstOcrFailure pages = none →
      DocumentProcessing.extract_markdown pages =
        String.intercalate "\n\n" (pages.map DocumentProcessing.pageTextOk)) := by
  constructor
  · intro e h
    unfold DocumentProcessing.extract_markdown
    rw [pageTexts_of_failure h]
  · intro h
    unfold DocumentProcessing.extract_markdown
    rw [pageTexts_of_no_failure h]

theorem c1_witness :
    DocumentProcessing.firstOcrFailure [⟨"", Except.error "x"⟩] = some "x" ∧
    DocumentProcessing.extract_markdown [⟨"", Except.error "x"⟩] = "Error: " ++ "x" :=
  ⟨by decide, (c1_ocr_failure_aborts_document [⟨"", Except.error "x"⟩]).1 "x" (by decide)⟩

/-- C1 (counterexample): a document whose first page's OCR raises `"boom"`
and whose second page carries plenty of selectable text yields the bare
string `"Error: boom"`; the second page's text does not appear anywhere in
the output, so the failure did prevent the document from being produced. -/
theorem c1_counterexample :
    DocumentProcessing.extract_markdown
      [⟨"", Except.error "boom"⟩, ⟨"plenty of selectable text", Except.ok ""⟩] =
      "Error: boom" ∧
    DocumentProcessing.needs_ocr ⟨"plenty of selectable text", Except.ok ""⟩ = false ∧
    ¬ "plenty of selectable text".data <:+: "Error: boom".data := by
  refine ⟨by decide, by decide, by decide⟩

/-! ## C9 — gather-by-index order preservation -/

theorem gather_foldl (P : Nat) (f : Fin P → String) :
    ∀ (L : List (Fin P)) (g : Nat → String) (i : Fin P),
      (L.foldl (fun acc j => Function.update acc j.val (f j)) g) i.val =
        if i ∈ L then f i else g i.val := by
  intro L
  induction L with
  | nil => intro g i; simp
  | cons a L ih =>
    intro g i
    rw [List.foldl_cons, ih]
    by_cases hi : i ∈ L
    · rw [if_pos hi, if_pos (List.mem_cons_of_mem a hi)]
    · rw [if_neg hi]
      by_cases hia : i = a
      · subst hia
        rw [if_pos (List.mem_cons_self i L), Function.update_same]
      · have hnot : i ∉ a :: L := by
          intro hmem
          rcases List.mem_cons.mp hmem with h1 | h1
          · exact hia h1
          · exact hi h1
        rw [if_neg hnot, Function.update_noteq (fun hv => hia (Fin.val_injective hv))]

/-- Whatever order the workers complete in, reading the result slots out in
page-index order reproduces the per-page results in page order. -/
theorem run_parallel_ocr_eq_ofFn {P : Nat} {arrival : List (Fin P)} (f : Fin P → String)
    (hall : ∀ i : Fin P, i ∈ arrival) :
    DocumentProcessing.run_parallel_ocr P arrival f = List.ofFn f := by
  apply List.ext_getElem
  · simp [DocumentProcessing.run_parallel_ocr]
  · intro i h1 h2
    have hi : i < P := by simpa using h2
    simp only [DocumentProcessing.run_parallel_ocr, List.getElem_map, List.getElem_range,
      List.getElem_ofFn]
    unfold DocumentProcessing.gatherSlots
    have hkey := gather_foldl P f arrival (fun _ => "") ⟨i, hi⟩
    rw [if_pos (hall ⟨i, hi⟩)] at hkey
    exact hkey

theorem pageSections_ofFn (P : Nat) (f : Fin P → String) :
    PymupdfAdapter.pageSections (List.ofFn f) =
      List.ofFn (fun i : Fin P => "## Page " ++ toString (i.val + 1) ++ "\n\n" ++ pyStripS (f i)) := by
  unfold PymupdfAdapter.pageSections
  apply List.ext_getElem
  · simp
  · intro i h1 h2
    simp [List.getElem_enum, List.getElem_ofFn]

theorem chain_lt_ofFn (P : Nat) :
    List.Chain' (fun a b => a < b) (List.ofFn (fun i : Fin P => i.val + 1)) := by
  rw [List.chain'_iff_get]
  intro i h
  simp only [List.get_eq_getElem, List.getElem_ofFn]
  omega

/-- C9: for every document of `P` pages, whatever the completion order of
the parallel workers, `run_parallel_ocr` gathers the per-page OCR results by
page index, so the assembled Markdown's page sections carry the headings
`## Page 1` through `## Page P` in strictly increasing page order. -/
theorem c9_page_order_preserved (P : Nat) (arrival : List (Fin P)) (f : Fin P → String)
    (hall : ∀ i : Fin P, i ∈ arrival) :
    DocumentProcessing.run_parallel_ocr P arrival f = List.ofFn f ∧
    PymupdfAdapter.pageSections (DocumentProcessing.run_parallel_ocr P arrival f) =
      List.ofFn (fun i : Fin P => "## Page " ++ toString (i.val + 1) ++ "\n\n" ++ pyStripS (f i)) ∧
    List.Chain' (fun a b => a < b) (List.ofFn (fun i : Fin P => i.val + 1)) := by
  refine ⟨run_parallel_ocr_eq_ofFn f hall, ?_, chain_lt_ofFn P⟩
  rw [run_parallel_ocr_eq_ofFn f hall, pageSections_ofFn]

theorem c9_witness :
    DocumentProcessing.run_parallel_ocr 3 [2, 0, 1] (fun i => toString i.val) =
      List.ofFn (fun i : Fin 3 => toString i.val) :=
  (c9_page_order_preserved 3 [2, 0, 1] (fun i => toString i.val) (by decide)).1

/-! ## C4 — totality of the text post-processing stages

The four stages are embedded as total functions; the one Python primitive in
them that can raise at all is the true division inside `cleanup_text`'s
noise filter (a `ZeroDivisionError` when the divisor is zero).  The checked
variant below threads that single partial operation through `Option`. -/


theorem keepLineChecked_eq (l : List Char) : keepLineChecked l = some (keepLine l) := by
  unfold keepLineChecked ratioOf
  have hne : ¬ ((max l.length 1 : Nat) : ℚ) = 0 := by
    have h1 : (1 : Nat) ≤ max l.length 1 := Nat.le_max_right _ _
    exact Nat.cast_ne_zero.mpr (by omega)
  rw [if_neg hne, Option.map_some']
  congr 1
  cases hk : keepLine l
  · apply decide_eq_false
    intro hr
    have hcontra := (keepLine_iff_ratio l).mpr hr
    rw [hk] at hcontra
    exact Bool.false_ne_true hcontra
  · exact decide_eq_true ((keepLine_iff_ratio l).mp hk)

theorem keptLinesChecked_eq (L : List (List Char)) :
    keptLinesChecked L = some (L.filter keepLine) := by
  induction L with
  | nil => rfl
  | cons line rest ih =>
    unfold keptLinesChecked
    rw [keepLineChecked_eq, ih, List.filter_cons]

/-- C4: every stage of the text post-processor — `cleanup_text`,
`detect_lists`, `segment_text_blocks`, `detect_structured_headings` — is
total: on every input string, the pipeline with its one fallible primitive
(the ratio division of `cleanup_text`) made explicit always returns a
string, because the divisor `max(len(line), 1)` is never zero; the remaining
stages contain no partial operation at all and are total by construction. -/
theorem c4_stages_total (s : String) :
    postprocess_stagesChecked s =
      some (detect_structured_headings (segment_text_blocks (detect_lists (cleanup_text s)))) := by
  unfold postprocess_stagesChecked cleanup_textChecked
  rw [keptLinesChecked_eq, Option.map_some', Option.map_some']
  rfl

/-! ## C5 and C3 — counterexamples on the text stages -/

/-- C5 (counterexample): on `"Hello\nWorld"` no exception of the claimed
rule applies — the first line ends with no continuation punctuation and the
next line starts upper-case — so the claim requires the single line break to
be merged into a space; `fix_line_breaks` keeps the line break instead. -/
theorem c5_counterexample :
    fix_line_breaks "Hello\nWorld" = "Hello\nWorld" ∧
    fix_line_breaks "Hello\nWorld" ≠ "Hello World" := by
  refine ⟨by decide, by decide⟩

/-- C3 (counterexample): the post-processing pipeline is not idempotent.  On
`"x\nVISTOS y"` the first pass inserts a heading, producing
`"x\n\n### VISTOS\ny"`; the second pass's whitespace collapsing folds the
inserted blank line and `### ` marker into the preceding line, producing
`"x VISTOS\ny"`. -/
theorem c3_counterexample :
    postprocess_pipeline (postprocess_pipeline "x\nVISTOS y") ≠
      postprocess_pipeline "x\nVISTOS y" ∧
    postprocess_pipeline "x\nVISTOS y" = "x\n\n### VISTOS\ny" ∧
    postprocess_pipeline (postprocess_pipeline "x\nVISTOS y") = "x VISTOS\ny" := by
  refine ⟨by decide, by decide, by decide⟩


/-! ## C5 — the actual reflow rule of `fix_line_breaks` -/

theorem parSubGo_cons (b : Bool) (c : Char) (rest : List Char) :
    parSubGo b (c :: rest) =
      if c = '\n' then
        if rest.head? = some '\n' then parSubGo true rest
        else (if b then parMarker else ['\n']) ++ parSubGo false rest
      else c :: parSubGo false rest := rfl

theorem parSubGo_no_nl : ∀ (l : List Char), '\n' ∉ l → ∀ b, parSubGo b l = l := by
  intro l
  induction l with
  | nil => intro _ _; rfl
  | cons c rest ih =>
    intro h b
    have hc : ¬ c = '\n' := fun hh => h (by rw [hh]; exact List.mem_cons_self _ _)
    rw [parSubGo_cons, if_neg hc, ih (fun hm => h (List.mem_cons_of_mem c hm)) false]

theorem head_ne_some_nl {b : List Char} (hb : '\n' ∉ b) : ¬ b.head? = some '\n' := by
  cases b with
  | nil => simp
  | cons c t =>
    rw [List.head?_cons]
    intro hceq
    rw [Option.some_inj] at hceq
    exact hb (by rw [hceq]; exact List.mem_cons_self _ _)

theorem parSub_single {b : List Char} (hb : '\n' ∉ b) :
    ∀ a : List Char, '\n' ∉ a → parSub (a ++ '\n' :: b) = a ++ '\n' :: b := by
  intro a
  induction a with
  | nil =>
    intro _
    rw [List.nil_append]
    show parSubGo false ('\n' :: b) = '\n' :: b
    rw [parSubGo_cons, if_pos rfl, if_neg (head_ne_some_nl hb), parSubGo_no_nl b hb false]
    rfl
  | cons c a' ih =>
    intro ha
    have hc : ¬ c = '\n' := fun hh => ha (by rw [hh]; exact List.mem_cons_self _ _)
    rw [List.cons_append]
    show parSubGo false (c :: (a' ++ '\n' :: b)) = c :: (a' ++ '\n' :: b)
    rw [parSubGo_cons, if_neg hc]
    show c :: parSub (a' ++ '\n' :: b) = c :: (a' ++ '\n' :: b)
    rw [ih (fun hm => ha (List.mem_cons_of_mem c hm))]

theorem parSub_double {b : List Char} (hb : '\n' ∉ b) :
    ∀ a : List Char, '\n' ∉ a →
      parSub (a ++ '\n' :: '\n' :: b) = a ++ parMarker ++ b := by
  intro a
  induction a with
  | nil =>
    intro _
    rw [List.nil_append]
    show parSubGo false ('\n' :: '\n' :: b) = parMarker ++ b
    rw [parSubGo_cons, if_pos rfl, if_pos (by rw [List.head?_cons])]
    rw [parSubGo_cons, if_pos rfl, if_neg (head_ne_some_nl hb), parSubGo_no_nl b hb false]
    rfl
  | cons c a' ih =>
    intro ha
    have hc : ¬ c = '\n' := fun hh => ha (by rw [hh]; exact List.mem_cons_self _ _)
    rw [List.cons_append]
    show parSubGo false (c :: (a' ++ '\n' :: '\n' :: b)) = (c :: a') ++ parMarker ++ b
    rw [parSubGo_cons, if_neg hc]
    show c :: parSub (a' ++ '\n' :: '\n' :: b) = (c :: a') ++ parMarker ++ b
    rw [ih (fun hm => ha (List.mem_cons_of_mem c hm))]
    rfl

theorem splitChar_cons (sep c : Char) (rest : List Char) :
    splitChar sep (c :: rest) =
      match splitChar sep rest with
      | [] => [[c]]
      | h :: t => if c = sep then [] :: h :: t else (c :: h) :: t := rfl

theorem splitChar_ne_nil (sep : Char) (l : List Char) : splitChar sep l ≠ [] := by
  cases l with
  | nil => simp [splitChar]
  | cons c rest =>
    rw [splitChar_cons]
    cases h : splitChar sep rest with
    | nil => simp
    | cons h t => by_cases hc : c = sep <;> simp [hc]

theorem splitChar_no_sep {sep : Char} :
    ∀ l : List Char, sep ∉ l → splitChar sep l = [l] := by
  intro l
  induction l with
  | nil => intro _; rfl
  | cons c rest ih =>
    intro h
    have hc : ¬ c = sep := fun hh => h (by rw [hh]; exact List.mem_cons_self _ _)
    rw [splitChar_cons, ih (fun hm => h (List.mem_cons_of_mem c hm))]
    simp [hc]

theorem splitChar_append_sep {sep : Char} {y : List Char} :
    ∀ a : List Char, sep ∉ a → splitChar sep (a ++ sep :: y) = a :: splitChar sep y := by
  intro a
  induction a with
  | nil =>
    intro _
    rw [List.nil_append, splitChar_cons]
    cases h : splitChar sep y with
    | nil => exact absurd h (splitChar_ne_nil sep y)
    | cons h t => simp
  | cons c a' ih =>
    intro ha
    have hc : ¬ c = sep := fun hh => ha (by rw [hh]; exact List.mem_cons_self _ _)
    rw [List.cons_append, splitChar_cons, ih (fun hm => ha (List.mem_cons_of_mem c hm))]
    simp [hc]

theorem isPrefixOf_append_self (p x : List Char) : p.isPrefixOf (p ++ x) = true := by
  induction p with
  | nil => simp [List.isPrefixOf]
  | cons c t ih => simpa [List.isPrefixOf] using ih

theorem isPrefixOf_cons_ne {hp c : Char} {pt r : List Char} (h : ¬ hp = c) :
    (hp :: pt).isPrefixOf (c :: r) = false := by
  simp [List.isPrefixOf, h]

theorem replaceGo_succ (pat rep : List Char) (f : Nat) (c : Char) (rest : List Char) :
    replaceGo pat rep (f + 1) (c :: rest) =
      if (pat.isPrefixOf (c :: rest) && !pat.isEmpty) = true then
        rep ++ replaceGo pat rep f ((c :: rest).drop pat.length)
      else c :: replaceGo pat rep f rest := rfl

theorem replaceGo_no_open {rep : List Char} :
    ∀ (fuel : Nat) (l : List Char), '[' ∉ l → replaceGo parMarker rep fuel l = l := by
  intro fuel
  induction fuel with
  | zero => intro l _; rfl
  | succ f ih =>
    intro l h
    cases l with
    | nil => rfl
    | cons c rest =>
      have hc : ¬ ('[' : Char) = c := fun hh => h (by rw [← hh]; exact List.mem_cons_self _ _)
      rw [replaceGo_succ]
      rw [if_neg (by rw [show parMarker.isPrefixOf (c :: rest) = false from isPrefixOf_cons_ne hc]; simp)]
      rw [ih rest (fun hm => h (List.mem_cons_of_mem c hm))]

theorem replaceGo_single {rep b' : List Char} (hbo : '[' ∉ b') :
    ∀ (a : List Char) (fuel : Nat), a.length < fuel → '[' ∉ a →
      replaceGo parMarker rep fuel (a ++ parMarker ++ b') = a ++ rep ++ b' := by
  intro a
  induction a with
  | nil =>
    intro fuel hf _
    cases fuel with
    | zero => omega
    | succ f =>
      rw [List.nil_append, List.nil_append]
      rw [show parMarker ++ b' = '[' :: ("PARAGRAPH]".data ++ b') from rfl]
      rw [replaceGo_succ]
      rw [show ('[' :: ("PARAGRAPH]".data ++ b')) = parMarker ++ b' from rfl]
      rw [if_pos (by rw [isPrefixOf_append_self]; rfl)]
      rw [List.drop_left, replaceGo_no_open f b' hbo]
  | cons c a' ih =>
    intro fuel hf ha
    cases fuel with
    | zero => omega
    | succ f =>
      have hc : ¬ ('[' : Char) = c := fun hh => ha (by rw [← hh]; exact List.mem_cons_self _ _)
      rw [List.cons_append, List.cons_append, replaceGo_succ]
      rw [if_neg (by rw [show parMarker.isPrefixOf (c :: (a' ++ parMarker ++ b')) = false from
        isPrefixOf_cons_ne hc]; simp)]
      rw [show a' ++ parMarker ++ b' = a' ++ parMarker ++ b' from rfl,
        ih f (by simpa using Nat.lt_of_succ_lt_succ hf) (fun hm => ha (List.mem_cons_of_mem c hm))]
      simp

theorem replaceSub_no_open {rep l : List Char} (h : '[' ∉ l) :
    replaceSub parMarker rep l = l :=
  replaceGo_no_open l.length l h

theorem replaceSub_single {rep a b' : List Char} (ha : '[' ∉ a) (hbo : '[' ∉ b') :
    replaceSub parMarker rep (a ++ parMarker ++ b') = a ++ rep ++ b' := by
  unfold replaceSub
  apply replaceGo_single hbo a _ _ ha
  rw [List.append_assoc, List.length_append, List.length_append]
  simp [parMarker]

theorem head?_append_left {a x : List Char} (h : a ≠ []) : (a ++ x).head? = a.head? := by
  cases a with
  | nil => exact absurd rfl h
  | cons u t => rfl

theorem not_mem_append {c : Char} {x y : List Char} (hx : c ∉ x) (hy : c ∉ y) :
    c ∉ x ++ y := by
  intro h
  rcases List.mem_append.mp h with h1 | h1
  · exact hx h1
  · exact hy h1

theorem not_mem_singleton {c d : Char} (h : ¬ c = d) : c ∉ [d] := by simp [h]

/-- A list framed by a stripped non-empty head part and a stripped non-empty
tail part is already stripped, whatever sits in the middle. -/
theorem pyStrip_block {a b : List Char} (mid : List Char)
    (hane : a ≠ []) (ha : pyStrip a = a) (hbne : b ≠ []) (hb : pyStrip b = b) :
    pyStrip (a ++ (mid ++ b)) = a ++ (mid ++ b) := by
  apply pyStrip_eq_self_of_ends
  · intro c hc
    rw [head?_append_left hane] at hc
    exact pyStrip_head_not_ws (l := a) (by rw [ha]; exact hc)
  · intro c hc
    rw [show a ++ (mid ++ b) = (a ++ mid) ++ b from (List.append_assoc a mid b).symm] at hc
    rw [List.getLast?_append_of_ne_nil _ hbne] at hc
    exact pyStrip_getLast_not_ws (l := b) (by rw [hb]; exact hc)

/-- As `pyStrip_block`, but with a single trailing whitespace character,
which stripping removes. -/
theorem pyStrip_block_drop {a b : List Char} (mid : List Char) {e : Char}
    (hane : a ≠ []) (ha : pyStrip a = a) (hbne : b ≠ []) (hb : pyStrip b = b)
    (he : wsChar e = true) :
    pyStrip (a ++ (mid ++ (b ++ [e]))) = a ++ (mid ++ b) := by
  rcases a with _ | ⟨u, t⟩
  · exact absurd rfl hane
  have hu : wsChar u = false := pyStrip_head_not_ws (l := u :: t) (by rw [ha]; rfl)
  rcases hrb : b.reverse with _ | ⟨c', t'⟩
  · exact absurd (by simpa using congrArg List.reverse hrb) hbne
  have hc' : wsChar c' = false := by
    apply pyStrip_getLast_not_ws (l := b)
    rw [hb, ← List.head?_reverse, hrb, List.head?_cons]
  show pyStrip (u :: (t ++ (mid ++ (b ++ [e])))) = u :: (t ++ (mid ++ b))
  unfold pyStrip
  rw [List.dropWhile_cons_of_neg (by simp [hu])]
  have hrev : (u :: (t ++ (mid ++ (b ++ [e])))).reverse =
      e :: (b.reverse ++ (mid.reverse ++ (t.reverse ++ [u]))) := by
    simp [List.reverse_append]
  rw [hrev, List.dropWhile_cons_of_pos he, hrb, List.cons_append,
    List.dropWhile_cons_of_neg (by simp [hc'])]
  rw [show c' :: (t' ++ (mid.reverse ++ (t.reverse ++ [u]))) =
      (c' :: t') ++ (mid.reverse ++ (t.reverse ++ [u])) from rfl, ← hrb]
  rw [show b.reverse ++ (mid.reverse ++ (t.reverse ++ [u])) =
      (u :: (t ++ (mid ++ b))).reverse by simp [List.reverse_append]]
  rw [List.reverse_reverse]

theorem fixLoop_cons (l : List Char) (rest : List (List Char)) :
    fixLoop (l :: rest) =
      if (pyStrip l).isEmpty then fixLoop rest
      else if mergeCond (pyStrip l) rest then (pyStrip l ++ [' ']) :: fixLoop rest
      else (pyStrip l ++ ['\n']) :: fixLoop rest := rfl

theorem fixLoop_cons_eval {l : List Char} (rest : List (List Char))
    (hlne : l ≠ []) (hl : pyStrip l = l) :
    fixLoop (l :: rest) =
      (l ++ [if mergeCond l rest then ' ' else '\n']) :: fixLoop rest := by
  have hle : l.isEmpty = false := by
    cases l with
    | nil => exact absurd rfl hlne
    | cons u t => rfl
  rw [fixLoop_cons, hl]
  rw [if_neg (by rw [hle]; exact Bool.false_ne_true)]
  cases hm : mergeCond l rest
  · rw [if_neg Bool.false_ne_true, if_neg Bool.false_ne_true]
  · rw [if_pos rfl, if_pos rfl]

theorem replaceSub_single' {rep a b' : List Char} (ha : '[' ∉ a) (hbo : '[' ∉ b') :
    replaceSub parMarker rep (a ++ (parMarker ++ b')) = a ++ (rep ++ b') := by
  rw [← List.append_assoc, ← List.append_assoc]
  exact replaceSub_single ha hbo

/-- C5 (amended): `fix_line_breaks` keeps a single line break by default and
merges it into a space exactly when the merge condition of the source holds:
the first line ends with continuation punctuation (`,`, `:`, `;`, `-`), or
it ends with none of `.`, `!`, `?` while the next line starts with a
lower-case character.  A double line break between two non-blank stripped
lines is preserved as a paragraph boundary. -/
theorem c5_fix_line_breaks_rule (a b : List Char)
    (hane : a ≠ []) (ha : pyStrip a = a) (hna : '\n' ∉ a) (hba : '[' ∉ a)
    (hbne : b ≠ []) (hb : pyStrip b = b) (hnb : '\n' ∉ b) (hbb : '[' ∉ b) :
    fix_line_breaksL (a ++ '\n' :: b) =
      (if mergeCond a [b] then a ++ ' ' :: b else a ++ '\n' :: b) ∧
    fix_line_breaksL (a ++ '\n' :: '\n' :: b) = a ++ '\n' :: '\n' :: b := by
  have hs1ws : ∀ (m : Bool), wsChar (if m then ' ' else '\n') = true := by
    intro m; cases m <;> decide
  have hs1no : ∀ (m : Bool), ¬ ('[' : Char) = (if m then ' ' else '\n') := by
    intro m; cases m <;> decide
  have haemp : (a ++ '\n' :: b).isEmpty = false := by
    cases a with
    | nil => exact absurd rfl hane
    | cons u t => rfl
  have haemp2 : (a ++ '\n' :: '\n' :: b).isEmpty = false := by
    cases a with
    | nil => exact absurd rfl hane
    | cons u t => rfl
  constructor
  · unfold fix_line_breaksL
    rw [if_neg (by rw [haemp]; exact Bool.false_ne_true)]
    rw [parSub_single hnb a hna, splitChar_append_sep a hna, splitChar_no_sep b hnb]
    rw [fixLoop_cons_eval [b] hane ha, fixLoop_cons_eval [] hbne hb]
    rw [show fixLoop ([] : List (List Char)) = [] from rfl]
    rw [show ((a ++ [if mergeCond a [b] then ' ' else '\n']) ::
        [b ++ [if mergeCond b [] then ' ' else '\n']]).flatten =
        (a ++ [if mergeCond a [b] then ' ' else '\n']) ++
          ((b ++ [if mergeCond b [] then ' ' else '\n']) ++ []) from rfl]
    rw [List.append_nil, List.append_assoc]
    rw [replaceSub_no_open
      (not_mem_append hba (not_mem_append (not_mem_singleton (hs1no (mergeCond a [b])))
        (not_mem_append hbb (not_mem_singleton (hs1no (mergeCond b []))))))]
    rw [pyStrip_block_drop [if mergeCond a [b] then ' ' else '\n'] hane ha hbne hb
      (hs1ws (mergeCond b []))]
    cases hm : mergeCond a [b]
    · rw [if_neg Bool.false_ne_true, if_neg Bool.false_ne_true]
      rfl
    · rw [if_pos rfl, if_pos rfl]
      rfl
  · unfold fix_line_breaksL
    rw [if_neg (by rw [haemp2]; exact Bool.false_ne_true)]
    rw [parSub_double hnb a hna, List.append_assoc]
    have hnl0 : '\n' ∉ a ++ (parMarker ++ b) :=
      not_mem_append hna (not_mem_append (by decide) hnb)
    rw [splitChar_no_sep _ hnl0]
    have hl0ne : a ++ (parMarker ++ b) ≠ [] := by
      cases a with
      | nil => exact absurd rfl hane
      | cons u t => simp
    have hl0strip : pyStrip (a ++ (parMarker ++ b)) = a ++ (parMarker ++ b) :=
      pyStrip_block parMarker hane ha hbne hb
    rw [fixLoop_cons_eval [] hl0ne hl0strip]
    rw [show fixLoop ([] : List (List Char)) = [] from rfl]
    rw [show ((a ++ (parMarker ++ b) ++
        [if mergeCond (a ++ (parMarker ++ b)) [] then ' ' else '\n']) ::
        ([] : List (List Char))).flatten =
        (a ++ (parMarker ++ b) ++
          [if mergeCond (a ++ (parMarker ++ b)) [] then ' ' else '\n']) ++ [] from rfl]
    rw [List.append_nil, List.append_assoc, List.append_assoc]
    rw [replaceSub_single' hba
      (not_mem_append hbb (not_mem_singleton (hs1no (mergeCond (a ++ (parMarker ++ b)) []))))]
    rw [pyStrip_block_drop "\n\n".data hane ha hbne hb
      (hs1ws (mergeCond (a ++ (parMarker ++ b)) []))]
    rfl

theorem c5_witness :
    fix_line_breaksL ("Hola,".data ++ '\n' :: "mundo".data) =
      (if mergeCond "Hola,".data ["mundo".data]
        then "Hola,".data ++ ' ' :: "mundo".data
        else "Hola,".data ++ '\n' :: "mundo".data) :=
  (c5_fix_line_breaks_rule "Hola,".data "mundo".data (by decide) (by decide) (by decide)
    (by decide) (by decide) (by decide) (by decide) (by decide)).1

/-! ## C3 — idempotence of `cleanup_text` -/


theorem allowSub_cons (c : Char) (t : List Char) :
    allowSub (c :: t) = (if allowedChar c then c else ' ') :: allowSub t := rfl

theorem mem_allowSub {l : List Char} {c : Char} (h : c ∈ allowSub l) :
    allowedChar c = true := by
  unfold allowSub at h
  obtain ⟨d, _, hd⟩ := List.mem_map.mp h
  by_cases hall : allowedChar d = true
  · rw [if_pos hall] at hd
    rw [← hd]
    exact hall
  · rw [if_neg hall] at hd
    rw [← hd]
    decide

theorem allowSub_id : ∀ l : List Char, (∀ c ∈ l, allowedChar c = true) → allowSub l = l := by
  intro l
  induction l with
  | nil => intro _; rfl
  | cons c t ih =>
    intro h
    rw [allowSub_cons, if_pos (h c (List.mem_cons_self _ _)),
      ih (fun d hd => h d (List.mem_cons_of_mem c hd))]

theorem collapseGo_cons (b : Bool) (c : Char) (rest : List Char) :
    collapseGo b (c :: rest) =
      if wsChar c then
        if (rest.head?.map wsChar).getD false then collapseGo true rest
        else (if b then ' ' else c) :: collapseGo false rest
      else c :: collapseGo false rest := rfl

theorem mem_collapseGo :
    ∀ (l : List Char) (b : Bool) (c : Char), c ∈ collapseGo b l → c ∈ l ∨ c = ' ' := by
  intro l
  induction l with
  | nil => intro b c h; exact absurd h (by simp [collapseGo])
  | cons d rest ih =>
    intro b c h
    rw [collapseGo_cons] at h
    by_cases hw : wsChar d = true
    · rw [if_pos hw] at h
      by_cases hh : ((rest.head?.map wsChar).getD false) = true
      · rw [if_pos hh] at h
        rcases ih true c h with h1 | h1
        · exact Or.inl (List.mem_cons_of_mem d h1)
        · exact Or.inr h1
      · rw [if_neg hh] at h
        rcases List.mem_cons.mp h with h1 | h1
        · cases b with
          | true => exact Or.inr (by simpa using h1)
          | false => exact Or.inl (by rw [h1]; exact List.mem_cons_self _ _)
        · rcases ih false c h1 with h2 | h2
          · exact Or.inl (List.mem_cons_of_mem d h2)
          · exact Or.inr h2
    · rw [if_neg hw] at h
      rcases List.mem_cons.mp h with h1 | h1
      · exact Or.inl (by rw [h1]; exact List.mem_cons_self _ _)
      · rcases ih false c h1 with h2 | h2
        · exact Or.inl (List.mem_cons_of_mem d h2)
        · exact Or.inr h2

theorem collapseGo_headws :
    ∀ (l : List Char) (b : Bool),
      ((collapseGo b l).head?.map wsChar).getD false = ((l.head?.map wsChar).getD false) := by
  intro l
  induction l with
  | nil => intro _; rfl
  | cons d rest ih =>
    intro b
    rw [collapseGo_cons]
    by_cases hw : wsChar d = true
    · rw [if_pos hw]
      by_cases hh : ((rest.head?.map wsChar).getD false) = true
      · rw [if_pos hh, ih true, hh]
        simp [hw]
      · rw [if_neg hh]
        cases b with
        | true =>
          simp only [List.head?_cons, Option.map_some', Option.getD_some]
          rw [if_pos trivial, hw]
          decide
        | false =>
          simp only [List.head?_cons, Option.map_some', Option.getD_some]
          simp
    · rw [if_neg hw]
      simp only [List.head?_cons, Option.map_some', Option.getD_some]

theorem collapseGo_chain :
    ∀ (l : List Char) (b : Bool), wsPairFree (collapseGo b l) := by
  intro l
  induction l with
  | nil => intro _; exact List.chain'_nil
  | cons d rest ih =>
    intro b
    rw [wsPairFree, collapseGo_cons]
    by_cases hw : wsChar d = true
    · rw [if_pos hw]
      by_cases hh : ((rest.head?.map wsChar).getD false) = true
      · rw [if_pos hh]
        exact ih true
      · rw [if_neg hh]
        rw [List.chain'_cons']
        refine ⟨?_, ih false⟩
        intro y hy hcon
        apply hh
        have h1 : ((collapseGo false rest).head?.map wsChar).getD false = true := by
          rw [Option.mem_def] at hy
          rw [hy, Option.map_some', Option.getD_some]
          exact hcon.2
        rw [collapseGo_headws rest false] at h1
        exact h1
    · rw [if_neg hw]
      rw [List.chain'_cons']
      refine ⟨?_, ih false⟩
      intro y hy hcon
      exact (by rw [hcon.1] at hw; exact hw rfl : False)

theorem collapseGo_id : ∀ l : List Char, wsPairFree l → collapseGo false l = l := by
  intro l
  induction l with
  | nil => intro _; rfl
  | cons d rest ih =>
    intro h
    rw [wsPairFree, List.chain'_cons'] at h
    rw [collapseGo_cons]
    by_cases hw : wsChar d = true
    · have hh : ((rest.head?.map wsChar).getD false) = false := by
        cases hr : rest.head? with
        | none => rfl
        | some y =>
          have := h.1 y hr
          simp only [hr, Option.map_some', Option.getD_some]
          cases hwy : wsChar y with
          | false => rfl
          | true => exact absurd ⟨hw, hwy⟩ this
      rw [if_pos hw, hh]
      rw [show (if false = true then collapseGo true rest
          else (if false then ' ' else d) :: collapseGo false rest) =
          d :: collapseGo false rest from rfl]
      rw [ih h.2]
    · rw [if_neg hw, ih h.2]

theorem mem_splitChar_subset {sep : Char} :
    ∀ (l : List Char), ∀ p ∈ splitChar sep l, ∀ c ∈ p, c ∈ l := by
  intro l
  induction l with
  | nil =>
    intro p hp c hc
    have hpe : p = [] := by simpa [splitChar] using hp
    rw [hpe] at hc
    exact absurd hc (List.not_mem_nil c)
  | cons d rest ih =>
    intro p hp c hc
    rw [splitChar_cons] at hp
    cases hsp : splitChar sep rest with
    | nil => exact absurd hsp (splitChar_ne_nil sep rest)
    | cons h t =>
      rw [hsp] at hp
      change p ∈ (if d = sep then [] :: h :: t else (d :: h) :: t) at hp
      by_cases hd : d = sep
      · rw [if_pos hd] at hp
        rcases List.mem_cons.mp hp with h1 | h1
        · rw [h1] at hc
          exact absurd hc (List.not_mem_nil c)
        · exact List.mem_cons_of_mem d (ih p (by rw [hsp]; exact h1) c hc)
      · rw [if_neg hd] at hp
        rcases List.mem_cons.mp hp with h1 | h1
        · rw [h1] at hc
          rcases List.mem_cons.mp hc with h2 | h2
          · rw [h2]; exact List.mem_cons_self _ _
          · exact List.mem_cons_of_mem d
              (ih h (by rw [hsp]; exact List.mem_cons_self _ _) c h2)
        · exact List.mem_cons_of_mem d
            (ih p (by rw [hsp]; exact List.mem_cons_of_mem h h1) c hc)

theorem splitChar_not_mem_sep {sep : Char} :
    ∀ (l : List Char), ∀ p ∈ splitChar sep l, sep ∉ p := by
  intro l
  induction l with
  | nil =>
    intro p hp
    have hpe : p = [] := by simpa [splitChar] using hp
    rw [hpe]
    exact List.not_mem_nil sep
  | cons d rest ih =>
    intro p hp
    rw [splitChar_cons] at hp
    cases hsp : splitChar sep rest with
    | nil => exact absurd hsp (splitChar_ne_nil sep rest)
    | cons h t =>
      rw [hsp] at hp
      change p ∈ (if d = sep then [] :: h :: t else (d :: h) :: t) at hp
      by_cases hd : d = sep
      · rw [if_pos hd] at hp
        rcases List.mem_cons.mp hp with h1 | h1
        · rw [h1]; exact List.not_mem_nil sep
        · exact ih p (by rw [hsp]; exact h1)
      · rw [if_neg hd] at hp
        rcases List.mem_cons.mp hp with h1 | h1
        · rw [h1]
          intro hmem
          rcases List.mem_cons.mp hmem with h2 | h2
          · exact hd h2.symm
          · exact ih h (by rw [hsp]; exact List.mem_cons_self _ _) h2
        · exact ih p (by rw [hsp]; exact List.mem_cons_of_mem h h1)

theorem splitChar_first_head {sep : Char} {l h : List Char} {t : List (List Char)}
    (hsp : splitChar sep l = h :: t) {c : Char} (hc : h.head? = some c) :
    l.head? = some c := by
  cases l with
  | nil =>
    change ([] : List Char) :: ([] : List (List Char)) = h :: t at hsp
    injection hsp with h1 _
    rw [← h1] at hc
    exact absurd hc (by simp)
  | cons d rest =>
    rw [splitChar_cons] at hsp
    cases hsp2 : splitChar sep rest with
    | nil => exact absurd hsp2 (splitChar_ne_nil sep rest)
    | cons h2 t2 =>
      rw [hsp2] at hsp
      change (if d = sep then [] :: h2 :: t2 else (d :: h2) :: t2) = h :: t at hsp
      by_cases hd : d = sep
      · rw [if_pos hd] at hsp
        injection hsp with h1 _
        rw [← h1] at hc
        exact absurd hc (by simp)
      · rw [if_neg hd] at hsp
        injection hsp with h1 _
        rw [← h1, List.head?_cons] at hc
        rw [List.head?_cons]
        exact hc

theorem splitChar_chain {R : Char → Char → Prop} {sep : Char} :
    ∀ (l : List Char), List.Chain' R l → ∀ p ∈ splitChar sep l, List.Chain' R p := by
  intro l
  induction l with
  | nil =>
    intro _ p hp
    have hpe : p = [] := by simpa [splitChar] using hp
    rw [hpe]
    exact List.chain'_nil
  | cons d rest ih =>
    intro hchain p hp
    have hd_rel := (List.chain'_cons'.mp hchain).1
    have htail := (List.chain'_cons'.mp hchain).2
    rw [splitChar_cons] at hp
    cases hsp : splitChar sep rest with
    | nil => exact absurd hsp (splitChar_ne_nil sep rest)
    | cons h t =>
      rw [hsp] at hp
      change p ∈ (if d = sep then [] :: h :: t else (d :: h) :: t) at hp
      by_cases hd : d = sep
      · rw [if_pos hd] at hp
        rcases List.mem_cons.mp hp with h1 | h1
        · rw [h1]; exact List.chain'_nil
        · exact ih htail p (by rw [hsp]; exact h1)
      · rw [if_neg hd] at hp
        rcases List.mem_cons.mp hp with h1 | h1
        · rw [h1, List.chain'_cons']
          constructor
          · intro y hy
            apply hd_rel
            rw [Option.mem_def] at hy ⊢
            exact splitChar_first_head hsp hy
          · exact ih htail h (by rw [hsp]; exact List.mem_cons_self _ _)
        · exact ih htail p (by rw [hsp]; exact List.mem_cons_of_mem h h1)

theorem chain'_of_suffix {R : Char → Char → Prop} {x y : List Char}
    (h : List.Chain' R y) (hs : x <:+ y) : List.Chain' R x := by
  obtain ⟨pre, rfl⟩ := hs
  exact (List.chain'_append.mp h).2.1

theorem chain'_pyStrip {R : Char → Char → Prop} (hsym : ∀ a b, R a b → R b a)
    {l : List Char} (h : List.Chain' R l) : List.Chain' R (pyStrip l) := by
  unfold pyStrip
  have h1 : List.Chain' R (l.dropWhile wsChar) :=
    chain'_of_suffix h (List.dropWhile_suffix wsChar)
  have h2 : List.Chain' (flip R) (l.dropWhile wsChar) :=
    h1.imp (fun a b hab => hsym a b hab)
  have h3 : List.Chain' R (l.dropWhile wsChar).reverse := by
    rw [List.chain'_reverse]
    exact h2
  have h4 : List.Chain' R ((l.dropWhile wsChar).reverse.dropWhile wsChar) :=
    chain'_of_suffix h3 (List.dropWhile_suffix wsChar)
  rw [List.chain'_reverse]
  exact h4.imp (fun a b hab => hsym a b hab)

theorem joinChar_cons₂ (sep : Char) (p q : List Char) (L : List (List Char)) :
    joinChar sep (p :: q :: L) = p ++ sep :: joinChar sep (q :: L) := rfl

theorem mem_joinChar {sep c : Char} :
    ∀ L : List (List Char), c ∈ joinChar sep L → c = sep ∨ ∃ p ∈ L, c ∈ p := by
  intro L
  induction L with
  | nil => intro h; exact absurd h (List.not_mem_nil c)
  | cons p L' ih =>
    intro h
    cases L' with
    | nil => exact Or.inr ⟨p, List.mem_cons_self _ _, h⟩
    | cons q L'' =>
      rw [joinChar_cons₂] at h
      rcases List.mem_append.mp h with h1 | h1
      · exact Or.inr ⟨p, List.mem_cons_self _ _, h1⟩
      · rcases List.mem_cons.mp h1 with h2 | h2
        · exact Or.inl h2
        · rcases ih h2 with h3 | ⟨r, hr, hcr⟩
          · exact Or.inl h3
          · exact Or.inr ⟨r, List.mem_cons_of_mem p hr, hcr⟩

theorem joinChar_head {sep : Char} {p : List Char} (L : List (List Char)) (hp : p ≠ []) :
    (joinChar sep (p :: L)).head? = p.head? := by
  cases L with
  | nil => rfl
  | cons q L' => rw [joinChar_cons₂]; exact head?_append_left hp

theorem joinChar_wsfree :
    ∀ L : List (List Char),
      (∀ p ∈ L, p ≠ [] ∧ pyStrip p = p ∧ wsPairFree p) →
      wsPairFree (joinChar '\n' L) := by
  intro L
  induction L with
  | nil => intro _; exact List.chain'_nil
  | cons p L' ih =>
    intro h
    obtain ⟨hpne, hpst, hpch⟩ := h p (List.mem_cons_self _ _)
    cases L' with
    | nil => exact hpch
    | cons q L'' =>
      obtain ⟨hqne, hqst,adum⟩ := h q (List.mem_cons_of_mem p (List.mem_cons_self _ _))
      rw [wsPairFree, joinChar_cons₂, List.chain'_append]
      refine ⟨hpch, ?_, ?_⟩
      · rw [List.chain'_cons']
        constructor
        · intro y hy hcon
          rw [Option.mem_def, joinChar_head L'' hqne] at hy
          have hyw : wsChar y = false :=
            pyStrip_head_not_ws (l := q) (by rw [hqst]; exact hy)
          rw [hyw] at hcon
          exact Bool.false_ne_true hcon.2
        · exact ih (fun r hr => h r (List.mem_cons_of_mem p hr))
      · intro x hx y hy hcon
        rw [Option.mem_def] at hx
        have hxw : wsChar x = false :=
          pyStrip_getLast_not_ws (l := p) (by rw [hpst]; exact hx)
        rw [hxw] at hcon
        exact Bool.false_ne_true hcon.1

theorem joinChar_split_round {sep : Char} :
    ∀ L : List (List Char), L ≠ [] → (∀ p ∈ L, sep ∉ p) →
      splitChar sep (joinChar sep L) = L := by
  intro L
  induction L with
  | nil => intro h _; exact absurd rfl h
  | cons p L' ih =>
    intro _ h
    cases L' with
    | nil => exact splitChar_no_sep p (h p (List.mem_cons_self _ _))
    | cons q L'' =>
      rw [joinChar_cons₂, splitChar_append_sep p (h p (List.mem_cons_self _ _)),
        ih (by simp) (fun r hr => h r (List.mem_cons_of_mem p hr))]

theorem cleanupLines_members (l : List Char) :
    ∀ p ∈ ((splitChar '\n' (collapseWs (allowSub l))).filter keepLine).map pyStrip,
      p ≠ [] ∧ pyStrip p = p ∧ wsPairFree p ∧ '\n' ∉ p ∧ keepLine p = true ∧
        (∀ c ∈ p, allowedChar c = true) := by
  intro p hp
  obtain ⟨q, hq, rfl⟩ := List.mem_map.mp hp
  obtain ⟨hqmem, hqkeep⟩ := List.mem_filter.mp hq
  refine ⟨pyStrip_ne_nil_of_keepLine hqkeep, pyStrip_idem q, ?_, ?_,
    keepLine_pyStrip hqkeep, ?_⟩
  · exact chain'_pyStrip (fun a b hab hc => hab ⟨hc.2, hc.1⟩)
      (splitChar_chain (collapseWs (allowSub l))
        (collapseGo_chain (allowSub l) false) q hqmem)
  · intro hc
    exact splitChar_not_mem_sep (collapseWs (allowSub l)) q hqmem
      (mem_of_mem_pyStrip hc)
  · intro c hc
    have h1 : c ∈ collapseWs (allowSub l) :=
      mem_splitChar_subset (collapseWs (allowSub l)) q hqmem c
        (mem_of_mem_pyStrip hc)
    rcases mem_collapseGo (allowSub l) false c h1 with h2 | rfl
    · exact mem_allowSub h2
    · decide

theorem cleanup_textL_fixed (L : List (List Char))
    (h : ∀ p ∈ L, p ≠ [] ∧ pyStrip p = p ∧ wsPairFree p ∧ '\n' ∉ p ∧
      keepLine p = true ∧ (∀ c ∈ p, allowedChar c = true)) :
    cleanup_textL (joinChar '\n' L) = joinChar '\n' L := by
  have hallow : ∀ c ∈ joinChar '\n' L, allowedChar c = true := by
    intro c hc
    rcases mem_joinChar L hc with rfl | ⟨p, hp, hcp⟩
    · decide
    · exact (h p hp).2.2.2.2.2 c hcp
  have hwsfree : wsPairFree (joinChar '\n' L) :=
    joinChar_wsfree L (fun p hp => ⟨(h p hp).1, (h p hp).2.1, (h p hp).2.2.1⟩)
  show cleanupLines (collapseWs (allowSub (nfkcNormalize (joinChar '\n' L))))
    = joinChar '\n' L
  have hcw : collapseWs (joinChar '\n' L) = joinChar '\n' L :=
    collapseGo_id _ hwsfree
  rw [show nfkcNormalize (joinChar '\n' L) = joinChar '\n' L from rfl,
    allowSub_id _ hallow, hcw]
  cases L with
  | nil => rfl
  | cons p0 L' =>
    show joinChar '\n'
        (((splitChar '\n' (joinChar '\n' (p0 :: L'))).filter keepLine).map pyStrip)
      = joinChar '\n' (p0 :: L')
    rw [joinChar_split_round (p0 :: L') (List.cons_ne_nil p0 L')
        (fun r hr => (h r hr).2.2.2.1),
      List.filter_eq_self.mpr (fun r hr => (h r hr).2.2.2.2.1),
      (List.map_congr_left (g := id)
        (fun r hr => (h r hr).2.1) : List.map pyStrip (p0 :: L') = _),
      List.map_id]

theorem cleanup_textL_idem (l : List Char) :
    cleanup_textL (cleanup_textL l) = cleanup_textL l := by
  show cleanup_textL (joinChar '\n'
      (((splitChar '\n' (collapseWs (allowSub (nfkcNormalize l)))).filter
        keepLine).map pyStrip))
    = joinChar '\n'
      (((splitChar '\n' (collapseWs (allowSub (nfkcNormalize l)))).filter
        keepLine).map pyStrip)
  exact cleanup_textL_fixed _ (cleanupLines_members (nfkcNormalize l))

/-- C3 (amended): the full five-stage pipeline is not idempotent (see the
counterexample), but its first stage alone is: `cleanup_text` applied twice
yields exactly the output of applying it once, for every input string.  The
output of one pass consists of newline-joined lines that are stripped,
free of disallowed characters and of whitespace runs, and pass the noise
filter, so a second pass leaves every stage's work unchanged. -/
theorem c3_cleanup_text_idempotent (s : String) :
    cleanup_text (cleanup_text s) = cleanup_text s :=
  congrArg String.mk (cleanup_textL_idem s.data)
